import Mathlib

/-!
Shallow embedding of `bin/qc.py`, the per-sample QC metrics script of the
rsv-a-artic-nf pipeline, together with theorems settling the
specification's claims about it.

Conventions of the embedding:
* Python `int` values are modelled as `Int`; counts are `Nat`.
* Percentages (Python float division) are modelled exactly in `ℚ`.
* Code that can raise (`statistics.median` on an empty list, a missing
  dictionary key, `min`/`max` of an empty collection, division by zero)
  is modelled with `Option`; `none` represents the raised exception.
* A Python `dict` (which preserves insertion order and overwrites the
  value in place on key reassignment) is modelled as an association list
  together with an overwriting insert.
-/

/-- One row of `samtools depth` output as parsed by `read_depth_file`
(qc.py lines 82-93): contig name, 1-based position, depth. The script
keeps the fields as strings and converts with `int(...)` at each use
site; the embedding parses them up front. -/
structure DepthRecord where
  contig : String
  pos : Int
  depth : Int
  deriving DecidableEq

/-- One primer record as built by `read_primers` (qc.py lines 104-123). -/
structure Primer where
  name : String
  pair_name : String
  start : Int
  end_ : Int
  amplicon_number : String
  pool : String
  orientation : String
  deriving DecidableEq

/-- One amplicon record as built by `primers_to_amplicons`
(qc.py lines 139-145). -/
structure Amplicon where
  number : String
  start : Int
  end_ : Int
  length : Int
  pool : String
  deriving DecidableEq

/-- `get_covered_pos` (qc.py lines 150-156): the number of depth records
whose depth is at least `min_depth`. -/
def get_covered_pos (pos_depth : List DepthRecord) (min_depth : Int) : Nat :=
  pos_depth.countP (fun r => decide (min_depth ≤ r.depth))

/-- `get_amplicon_covered_pos` (qc.py lines 158-165): the number of depth
records whose position lies in the inclusive range
`[lowest_amplicon_start, highest_amplicon_end]` and whose depth is at
least `min_depth`, paired with `highest_amplicon_end - lowest_amplicon_start`. -/
def get_amplicon_covered_pos (pos_depth : List DepthRecord) (min_depth : Int)
    (lowest_start highest_end : Int) : Nat × Int :=
  (pos_depth.countP
      (fun r => decide (lowest_start ≤ r.pos ∧ r.pos ≤ highest_end ∧ min_depth ≤ r.depth)),
   highest_end - lowest_start)

/-- `get_N_positions` (qc.py lines 167-170): the 0-based indices of the
case-normalized ambiguity marker in the consensus sequence. -/
def get_N_positions (seq : List Char) : List Nat :=
  (seq.enum.filter (fun ic => ic.2.toLower == 'n')).map Prod.fst

/-- `get_pct_N_bases` (qc.py lines 172-178). The division raises
`ZeroDivisionError` on an empty sequence, modelled as `none`. -/
def get_pct_N_bases (seq : List Char) : Option ℚ :=
  if seq.length = 0 then none
  else some (((get_N_positions seq).length : ℚ) / (seq.length : ℚ) * 100)

/-- `get_largest_N_gap` (qc.py lines 180-187): pad the ambiguity indices
with 0 and the sequence length, take consecutive differences, and return
the last element of the sorted differences (`sorted(n_gaps)[-1]`; the
difference list is never empty because the padded list has at least two
elements, so the `getD 0` default is never taken). -/
def get_largest_N_gap (seq : List Char) : Int :=
  let n_pos : List Int :=
    [0] ++ (get_N_positions seq).map (fun i : Nat => (i : Int)) ++ [(seq.length : Int)]
  let n_gaps : List Int :=
    List.zipWith (fun i j => j - i) n_pos.dropLast n_pos.tail
  ((n_gaps.insertionSort (· ≤ ·)).getLast?).getD 0

/-- Python `statistics.median`: sort, then take the middle element (odd
length) or the mean of the two middle elements (even length). Raises
`StatisticsError` on an empty list, modelled as `none`. -/
def statistics_median (l : List Int) : Option ℚ :=
  let s := l.insertionSort (· ≤ ·)
  let n := s.length
  if n = 0 then none
  else if n % 2 = 1 then (s.get? (n / 2)).map (fun x => (x : ℚ))
  else
    match s.get? (n / 2 - 1), s.get? (n / 2) with
    | some a, some b => some (((a : ℚ) + (b : ℚ)) / 2)
    | _, _ => none

/-- `get_median_depth` (qc.py lines 217-222): the median of all depth
values, or 0 for an empty series. -/
def get_median_depth (depth_pos : List DepthRecord) : Option ℚ :=
  if depth_pos.length > 0 then
    statistics_median (depth_pos.map (fun r => r.depth))
  else some 0

/-- `calculate_amplicon_median_depth` (qc.py lines 224-229): for a
non-empty series, the median of the depths of records whose position lies
in `[amplicon_start, amplicon_end]` (which raises if that subset is
empty); for an empty series, 0. -/
def calculate_amplicon_median_depth (depth_pos : List DepthRecord)
    (amplicon_start amplicon_end : Int) : Option ℚ :=
  if depth_pos.length > 0 then
    statistics_median
      ((depth_pos.filter
          (fun r => decide (amplicon_start ≤ r.pos ∧ r.pos ≤ amplicon_end))).map
        (fun r => r.depth))
  else some 0

/-- The `positive_orientation_primers` list of `primers_to_amplicons`
(qc.py line 132): the primer-map values whose orientation is `"+"`,
in iteration order. -/
def positive_orientation_primers (primers : List (String × Primer)) : List Primer :=
  (primers.map (fun kv => kv.2)).filter (fun p => p.orientation == "+")

/-- The amplicon built from one forward primer inside the loop of
`primers_to_amplicons` (qc.py lines 134-145). The lookup
`primers[primer['pair_name']]` raises `KeyError` when the pair is absent,
modelled as `none`. -/
def amplicon_from_primer (primers : List (String × Primer)) (p : Primer) : Option Amplicon :=
  (List.lookup p.pair_name primers).map (fun q =>
    { number := p.amplicon_number
      start := p.end_
      end_ := q.start
      length := q.start - p.end_
      pool := p.pool })

/-- Python `dict` assignment `d[k] = v`: overwrites in place when the key
is present (keeping its original position), otherwise appends. -/
def dict_insert {β : Type} (m : List (String × β)) (k : String) (v : β) :
    List (String × β) :=
  if m.any (fun kv => decide (kv.1 = k)) then
    m.map (fun kv => if kv.1 = k then (k, v) else kv)
  else
    m ++ [(k, v)]

/-- The accumulation loop of `primers_to_amplicons` (qc.py lines 133-145):
insert one amplicon per forward primer, keyed by its amplicon number. -/
def build_amplicons (primers : List (String × Primer)) :
    List Primer → List (String × Amplicon) → Option (List (String × Amplicon))
  | [], acc => some acc
  | p :: ps, acc =>
    match amplicon_from_primer primers p with
    | some a => build_amplicons primers ps (dict_insert acc p.amplicon_number a)
    | none => none

/-- `primers_to_amplicons` (qc.py lines 130-147). -/
def primers_to_amplicons (primers : List (String × Primer)) :
    Option (List (String × Amplicon)) :=
  build_amplicons primers (positive_orientation_primers primers) []

/-- `min(primers.values(), key=lambda x: x['start'])['start']`
(qc.py line 236). Python `min` raises on an empty collection, modelled as
`none`. Despite its name this is a minimum over all primers. -/
def lowest_amplicon_start (primers : List (String × Primer)) : Option Int :=
  match primers.map (fun kv => kv.2.start) with
  | [] => none
  | x :: xs => some (xs.foldl min x)

/-- `max(primers.values(), key=lambda x: x['end'])['end']`
(qc.py line 237). Despite its name this is a maximum over all primers. -/
def highest_amplicon_end (primers : List (String × Primer)) : Option Int :=
  match primers.map (fun kv => kv.2.end_) with
  | [] => none
  | x :: xs => some (xs.foldl max x)

/-- `pct_amplicon_covered_bases` as computed in `main` (qc.py line 252):
covered count divided by the returned region length, times 100. -/
def pct_amplicon_covered_bases (depth_amplicon_covered_bases : Nat)
    (amplicon_length : Int) : ℚ :=
  (depth_amplicon_covered_bases : ℚ) / (amplicon_length : ℚ) * 100

/-- The ambiguity-metric portion of `main` (qc.py lines 260-267): both
metrics default to 0 and are only computed for a non-empty consensus
sequence. -/
def main_ambiguity_metrics (seq : List Char) : Option (ℚ × Int) :=
  if seq.length ≠ 0 then
    (get_pct_N_bases seq).map (fun p => (p, get_largest_N_gap seq))
  else
    some (0, 0)

/-- The field names of the `qc_line` record composed and serialized by
`main` (qc.py lines 277-296): the fixed fields in order, followed by one
`amplicon_<n>_median_depth` field per resolved amplicon number. The CSV
header is exactly this key list. -/
def qc_line_fields (amplicon_numbers : List String) : List String :=
  ["sample_name", "pct_N_bases", "pct_covered_bases", "pct_amplicon_covered_bases",
   "longest_no_N_run", "num_aligned_reads", "median_depth_coverage", "fasta", "bam"]
  ++ amplicon_numbers.map (fun amplicon_num => "amplicon_" ++ amplicon_num ++ "_median_depth")

/-- The zero-initialized per-position depth table built by `make_qc_plot`
(qc.py lines 26-29): one row per position of `1..ref_length`, depth 0. -/
def init_depth_df (ref_length : Nat) : List DepthRecord :=
  (List.range ref_length).map (fun i : Nat => { contig := "", pos := (i : Int) + 1, depth := 0 })

/-- One assignment `depth_df.loc[pos - 1, 'depth'] = depth` of
`make_qc_plot` (qc.py lines 31-34), updating the table row carrying the
record's position. -/
def set_depth (df : List DepthRecord) (r : DepthRecord) : List DepthRecord :=
  df.map (fun x => if x.pos = r.pos then { x with depth := r.depth } else x)

/-- The fully materialized fixed-length depth series, as `make_qc_plot`
builds it (qc.py lines 26-34): every position of `1..ref_length` is
present and every position not enumerated by the input keeps depth 0.
This is the spec's normalized series; records with positions outside
`1..ref_length` (where pandas would enlarge the frame) are outside the
modelled domain and excluded by hypothesis in the theorems below. -/
def materialized_depth (depth_pos : List DepthRecord) (ref_length : Nat) :
    List DepthRecord :=
  depth_pos.foldl set_depth (init_depth_df ref_length)

/-- Consecutive differences of a list, used to reason about the
`n_gaps = [j - i for i, j in zip(n_pos[:-1], n_pos[1:])]` expression of
`get_largest_N_gap`. -/
def difs : List Int → List Int
  | x :: y :: l => (y - x) :: difs (y :: l)
  | _ => []

/-- The synthetic primer set of the spec's round-trip scenario: pool "1"
with forward primer at 10-40 and reverse primer at 360-390, pool "2" with
forward primer at 200-230 and reverse primer at 550-580. -/
def c2_primers : List (String × Primer) :=
  [("RSVA_1_LEFT", ⟨"RSVA_1_LEFT", "RSVA_1_RIGHT", 10, 40, "1", "1", "+"⟩),
   ("RSVA_1_RIGHT", ⟨"RSVA_1_RIGHT", "RSVA_1_LEFT", 360, 390, "1", "1", "-"⟩),
   ("RSVA_2_LEFT", ⟨"RSVA_2_LEFT", "RSVA_2_RIGHT", 200, 230, "2", "2", "+"⟩),
   ("RSVA_2_RIGHT", ⟨"RSVA_2_RIGHT", "RSVA_2_LEFT", 550, 580, "2", "2", "-"⟩)]

/-- A primer set in which two forward primers ("A_1_LEFT" and "B_1_LEFT",
in that iteration order) share the amplicon number "1". -/
def c10_primers : List (String × Primer) :=
  [("A_1_LEFT", ⟨"A_1_LEFT", "A_1_RIGHT", 10, 40, "1", "1", "+"⟩),
   ("A_1_RIGHT", ⟨"A_1_RIGHT", "A_1_LEFT", 360, 390, "1", "1", "-"⟩),
   ("B_1_LEFT", ⟨"B_1_LEFT", "B_1_RIGHT", 50, 80, "1", "2", "+"⟩),
   ("B_1_RIGHT", ⟨"B_1_RIGHT", "B_1_LEFT", 400, 430, "1", "2", "-"⟩)]

/-- Proof-support abbreviation: the depth test applied to row `i`
(position `i+1`) of the materialized table. The last input record at that
position decides; a position no record enumerates keeps depth 0. -/
def mat_covered_pred (dp : List DepthRecord) (m : Int) (i : Nat) : Bool :=
  (dp.reverse.find? (fun r => r.pos == (i : Int) + 1)).elim
    (decide (m ≤ (0 : Int))) (fun r => decide (m ≤ r.depth))

/-! ## Claim C1: the serialized QC record and `qc_pass` -/

/-- **C1**: the record composed and serialized by `main` contains no
`qc_pass` field at all, for any resolved amplicon set: the fixed fields
do not include it and every dynamically added field is named
`amplicon_<n>_median_depth`. (The local variable `qc_pass = "FALSE"` at
qc.py line 262 is dead, and no policy function exists, contradicting the
module docstring at qc.py lines 16-21.) -/
theorem qc_line_has_no_qc_pass_field (amplicon_numbers : List String) :
    "qc_pass" ∉ qc_line_fields amplicon_numbers := by
  unfold qc_line_fields
  intro hmem
  rcases List.mem_append.mp hmem with hfix | hdyn
  · revert hfix
    decide
  · rcases List.mem_map.mp hdyn with ⟨n, _, hn⟩
    have hlen := congrArg String.length hn
    rw [String.length_append, String.length_append] at hlen
    have h1 : "amplicon_".length = 9 := by decide
    have h2 : "_median_depth".length = 13 := by decide
    have h3 : "qc_pass".length = 7 := by decide
    omega

/-! ## Claim C2: the round-trip amplicon resolution scenario -/

/-- **C2 counterexample**: on the spec's synthetic two-amplicon primer
set, the resolver produces amplicons of length 320, not 350. -/
theorem roundtrip_amplicon_lengths_not_350 :
    (primers_to_amplicons c2_primers).map (fun m => m.map (fun kv => kv.2.length)) =
      some [320, 320] ∧ (320 : Int) ≠ 350 := by decide

/-- **C2 amended**: on the synthetic primer set the resolver produces
exactly 2 amplicons, each with start equal to its forward primer's end,
end equal to its reverse primer's start, and hence length
360 - 40 = 550 - 230 = 320. -/
theorem roundtrip_two_amplicons_length_320 :
    primers_to_amplicons c2_primers =
      some [("1", ⟨"1", 40, 360, 320, "1"⟩), ("2", ⟨"2", 230, 550, 320, "2"⟩)] := by decide

/-! ## Claim C3: per-amplicon median depth on an empty overlap -/

/-- **C3 counterexample**: for the non-empty depth series with the single
record ("ref", 1, 5) and the amplicon range [10, 20] (which contains no
position of the series), `calculate_amplicon_median_depth` evaluates
`statistics.median` on an empty list, which raises (modelled `none`)
rather than returning 0. -/
theorem amplicon_median_nonoverlap_raises :
    calculate_amplicon_median_depth [⟨"ref", 1, 5⟩] 10 20 = none ∧
      calculate_amplicon_median_depth [⟨"ref", 1, 5⟩] 10 20 ≠ some 0 := by decide

/-- **C3 amended**: for every non-empty depth series and every amplicon
range containing no position of the series, the per-amplicon median-depth
operation fails (raises `StatisticsError`, modelled `none`); the 0
fallback only applies when the whole series is empty. -/
theorem amplicon_median_empty_overlap_fails (depth_pos : List DepthRecord)
    (amplicon_start amplicon_end : Int) (hne : depth_pos ≠ [])
    (hout : ∀ r ∈ depth_pos, ¬(amplicon_start ≤ r.pos ∧ r.pos ≤ amplicon_end)) :
    calculate_amplicon_median_depth depth_pos amplicon_start amplicon_end = none := by
  unfold calculate_amplicon_median_depth
  have hlen : depth_pos.length > 0 := List.length_pos.mpr hne
  rw [if_pos hlen]
  have hfil : depth_pos.filter
      (fun r => decide (amplicon_start ≤ r.pos ∧ r.pos ≤ amplicon_end)) = [] :=
    List.filter_eq_nil_iff.mpr (fun r hr => by simpa using hout r hr)
  rw [hfil]
  rfl

/-- **C3 amended, witness**: concrete instance of the amended claim. -/
theorem amplicon_median_empty_overlap_fails_witness :
    calculate_amplicon_median_depth [⟨"ref", 5, 7⟩] 100 200 = none :=
  amplicon_median_empty_overlap_fails [⟨"ref", 5, 7⟩] 100 200 (by decide) (by decide)

/-! ## Claim C7: empty consensus sequence -/

/-- **C7**: for a zero-length consensus sequence, `main` short-circuits
and reports both ambiguity metrics as 0 without evaluating the division
(no `ZeroDivisionError`: the result is `some`, not `none`). -/
theorem empty_consensus_metrics_zero (seq : List Char) (h : seq.length = 0) :
    main_ambiguity_metrics seq = some (0, 0) := by
  unfold main_ambiguity_metrics
  simp [h]

/-- **C7 witness**: the empty sequence itself. -/
theorem empty_consensus_metrics_zero_witness :
    ([] : List Char).length = 0 ∧ main_ambiguity_metrics [] = some (0, 0) :=
  ⟨rfl, empty_consensus_metrics_zero [] rfl⟩

/-! ## Claim C8: monotonicity of the covered-base count -/

/-- **C8**: for every depth series and thresholds d1 ≤ d2, the covered
count at the lower threshold d1 is at least the count at d2. -/
theorem covered_count_antitone_in_min_depth (pos_depth : List DepthRecord)
    (d1 d2 : Int) (h : d1 ≤ d2) :
    get_covered_pos pos_depth d2 ≤ get_covered_pos pos_depth d1 := by
  unfold get_covered_pos
  refine List.countP_mono_left (fun r _ hr => ?_)
  simp only [decide_eq_true_eq] at hr ⊢
  exact le_trans h hr

/-- **C8 witness**: a concrete two-record series with thresholds 5 ≤ 10. -/
theorem covered_count_antitone_witness :
    (5 : Int) ≤ 10 ∧
      get_covered_pos [⟨"ref", 1, 5⟩, ⟨"ref", 2, 12⟩] 10 ≤
        get_covered_pos [⟨"ref", 1, 5⟩, ⟨"ref", 2, 12⟩] 5 :=
  ⟨by decide, covered_count_antitone_in_min_depth [⟨"ref", 1, 5⟩, ⟨"ref", 2, 12⟩] 5 10 (by decide)⟩

/-! ## Claim C6: boundary values of the longest clean run -/

/-- **C6 counterexample**: a non-empty sequence composed entirely of
ambiguity markers yields a longest clean run of 1, not 0: the padded
boundary list for "NNN" is [0, 0, 1, 2, 3] with consecutive differences
[0, 1, 1, 1]. -/
theorem all_ambiguous_gap_is_one_not_zero :
    get_largest_N_gap ['N', 'N', 'N'] = 1 ∧ (1 : Int) ≠ 0 := by decide

/-- The `n_gaps` zip expression of `get_largest_N_gap` equals the
consecutive-differences function `difs`. -/
theorem zipWith_dropLast_tail_eq_difs :
    ∀ l : List Int, List.zipWith (fun i j => j - i) l.dropLast l.tail = difs l
  | [] => rfl
  | [_] => rfl
  | x :: y :: l => by
    have ih := zipWith_dropLast_tail_eq_difs (y :: l)
    rw [List.tail_cons] at ih
    rw [List.dropLast_cons₂, List.tail_cons, List.zipWith_cons_cons, ih]
    rfl

/-- A sequence with no ambiguity markers records no N positions. -/
theorem get_N_positions_eq_nil (seq : List Char) (h : ∀ c ∈ seq, c.toLower ≠ 'n') :
    get_N_positions seq = [] := by
  unfold get_N_positions
  have hf : seq.enum.filter (fun ic => ic.2.toLower == 'n') = [] := by
    refine List.filter_eq_nil_iff.mpr ?_
    rintro ⟨i, c⟩ hic
    rw [List.enum_eq_zip_range] at hic
    have hc : c ∈ seq := (List.of_mem_zip hic).2
    simpa using h c hc
  rw [hf]
  rfl

/-- An all-ambiguity sequence records every index. -/
theorem get_N_positions_eq_range (seq : List Char) (h : ∀ c ∈ seq, c.toLower = 'n') :
    get_N_positions seq = List.range seq.length := by
  unfold get_N_positions
  have hf : seq.enum.filter (fun ic => ic.2.toLower == 'n') = seq.enum := by
    refine List.filter_eq_self.mpr ?_
    rintro ⟨i, c⟩ hic
    rw [List.enum_eq_zip_range] at hic
    have hc : c ∈ seq := (List.of_mem_zip hic).2
    simpa using h c hc
  rw [hf, List.enum_map_fst]

/-- Shifting every element by one does not change consecutive differences. -/
theorem difs_map_add_one :
    ∀ l : List Int, difs (l.map (fun x => x + 1)) = difs l
  | [] => rfl
  | [_] => rfl
  | x :: y :: l => by
    have ih := difs_map_add_one (y :: l)
    simp only [List.map_cons] at ih ⊢
    show ((y + 1) - (x + 1)) :: difs ((y + 1) :: l.map (fun x => x + 1)) =
      (y - x) :: difs (y :: l)
    rw [ih]
    congr 1
    ring

/-- Unfolding the integer cast of `List.range (m+1)` at the head. -/
theorem range_cast_succ (m : Nat) :
    (List.range (m + 1)).map (fun n : Nat => (n : Int)) =
      0 :: ((List.range m).map (fun n : Nat => (n : Int))).map (fun x => x + 1) := by
  rw [List.range_succ_eq_map, List.map_cons, List.map_map, List.map_map]
  congr 1

/-- Consecutive differences of [0, 1, ..., m-1] are m-1 ones. -/
theorem difs_range_cast :
    ∀ m : Nat, difs ((List.range m).map (fun n : Nat => (n : Int))) = List.replicate (m - 1) 1 := by
  intro m
  induction m with
  | zero => rfl
  | succ k ih =>
    rw [range_cast_succ k]
    cases k with
    | zero => rfl
    | succ j =>
      rw [range_cast_succ j, List.map_cons]
      show difs ((0 : Int) :: (0 + 1) :: (((List.range j).map (fun n : Nat => (n : Int))).map
          (fun x => x + 1)).map (fun x => x + 1)) = List.replicate (j + 1) 1
      rw [show ((0 : Int) + 1) = 1 from by norm_num]
      rw [show difs ((0 : Int) :: (1 : Int) :: (((List.range j).map (fun n : Nat => (n : Int))).map
            (fun x => x + 1)).map (fun x => x + 1)) =
          ((1 : Int) - 0) :: difs ((1 : Int) :: (((List.range j).map (fun n : Nat => (n : Int))).map
            (fun x => x + 1)).map (fun x => x + 1)) from rfl]
      rw [show ((1 : Int) :: (((List.range j).map (fun n : Nat => (n : Int))).map
            (fun x => x + 1)).map (fun x => x + 1)) =
          ((0 : Int) :: (((List.range j).map (fun n : Nat => (n : Int))).map
            (fun x => x + 1))).map (fun x => x + 1) from by simp]
      rw [difs_map_add_one, ← range_cast_succ j, ih]
      rw [List.replicate_succ]
      norm_num

/-- Consecutive differences of the padded boundary list of an
all-ambiguity sequence of length `len`: a leading 0 (the two zeros at the
front) followed by `len` ones. -/
theorem difs_allN (len : Nat) :
    difs ([0] ++ (List.range len).map (fun i : Nat => (i : Int)) ++ [(len : Int)]) =
      0 :: List.replicate len 1 := by
  have h1 : (List.range len).map (fun i : Nat => (i : Int)) ++ [(len : Int)] =
      (List.range (len + 1)).map (fun i : Nat => (i : Int)) := by
    rw [List.range_succ, List.map_append]
    rfl
  rw [List.append_assoc, h1, range_cast_succ len]
  show difs ((0 : Int) :: 0 :: ((List.range len).map (fun n : Nat => (n : Int))).map
      (fun x => x + 1)) = 0 :: List.replicate len 1
  rw [show difs ((0 : Int) :: 0 :: ((List.range len).map (fun n : Nat => (n : Int))).map
        (fun x => x + 1)) =
      ((0 : Int) - 0) :: difs ((0 : Int) :: ((List.range len).map (fun n : Nat => (n : Int))).map
        (fun x => x + 1)) from rfl]
  rw [← range_cast_succ len, difs_range_cast (len + 1)]
  norm_num

/-- Inserting another copy of an element into a constant list appends it
at the front. -/
theorem orderedInsert_one_replicate_one :
    ∀ n : Nat, (List.replicate n (1 : Int)).orderedInsert (· ≤ ·) 1 =
      List.replicate (n + 1) 1 := by
  intro n
  cases n with
  | zero => rfl
  | succ j =>
    rw [List.replicate_succ]
    show List.orderedInsert (· ≤ ·) 1 (1 :: List.replicate j 1) = _
    rw [List.orderedInsert]
    simp [List.replicate_succ]

/-- Sorting a constant list is the identity. -/
theorem insertionSort_replicate_one :
    ∀ n : Nat, (List.replicate n (1 : Int)).insertionSort (· ≤ ·) = List.replicate n 1 := by
  intro n
  induction n with
  | zero => rfl
  | succ j ih =>
    rw [List.replicate_succ]
    show List.orderedInsert (· ≤ ·) 1 ((List.replicate j 1).insertionSort (· ≤ ·)) = _
    rw [ih, orderedInsert_one_replicate_one, List.replicate_succ]

/-- Sorting `0 :: replicate n 1` is the identity. -/
theorem insertionSort_zero_cons_replicate_one (n : Nat) :
    ((0 : Int) :: List.replicate n 1).insertionSort (· ≤ ·) = 0 :: List.replicate n 1 := by
  show List.orderedInsert (· ≤ ·) 0 ((List.replicate n 1).insertionSort (· ≤ ·)) = _
  rw [insertionSort_replicate_one]
  cases n with
  | zero => rfl
  | succ j =>
    rw [List.replicate_succ]
    show List.orderedInsert (· ≤ ·) 0 (1 :: List.replicate j 1) = _
    rw [List.orderedInsert]
    simp [List.replicate_succ]

/-- The last element of `x :: replicate (k+1) c` is `c`. -/
theorem getLast?_cons_replicate (c : Int) :
    ∀ (k : Nat) (x : Int), (x :: List.replicate (k + 1) c).getLast? = some c := by
  intro k
  induction k with
  | zero =>
    intro x
    rw [List.replicate_succ, List.getLast?_cons_cons]
    rfl
  | succ j ih =>
    intro x
    rw [List.replicate_succ, List.getLast?_cons_cons]
    exact ih c

/-- **C6 amended**: for a non-empty consensus sequence, the
longest-clean-run measure equals the sequence length when no ambiguity
marker occurs (as the claim states), but equals 1 (not 0) when every
symbol is an ambiguity marker. -/
theorem largest_clean_run_boundary_values (seq : List Char) (hne : seq ≠ []) :
    ((∀ c ∈ seq, c.toLower ≠ 'n') → get_largest_N_gap seq = (seq.length : Int)) ∧
    ((∀ c ∈ seq, c.toLower = 'n') → get_largest_N_gap seq = 1) := by
  constructor
  · intro h
    simp only [get_largest_N_gap]
    rw [get_N_positions_eq_nil seq h]
    simp [List.insertionSort, List.orderedInsert]
  · intro h
    simp only [get_largest_N_gap]
    rw [get_N_positions_eq_range seq h]
    rw [zipWith_dropLast_tail_eq_difs, difs_allN seq.length,
      insertionSort_zero_cons_replicate_one]
    obtain ⟨k, hk⟩ : ∃ k, seq.length = k + 1 :=
      Nat.exists_eq_succ_of_ne_zero (fun h0 => hne (List.length_eq_zero.mp h0))
    rw [hk, getLast?_cons_replicate]
    rfl

/-- **C6 amended, witness**: the all-ambiguity sequence "NN". -/
theorem largest_clean_run_boundary_witness :
    (['N', 'N'] : List Char) ≠ [] ∧
    (((∀ c ∈ (['N', 'N'] : List Char), c.toLower ≠ 'n') →
        get_largest_N_gap ['N', 'N'] = ((['N', 'N'] : List Char).length : Int)) ∧
     ((∀ c ∈ (['N', 'N'] : List Char), c.toLower = 'n') →
        get_largest_N_gap ['N', 'N'] = 1)) :=
  ⟨by decide, largest_clean_run_boundary_values ['N', 'N'] (by decide)⟩

/-! ## Claim C9: inclusive count over an exclusive-length denominator -/

/-- **C9**: the amplicon-region counter counts positions of the inclusive
range [lowest, highest] but returns `highest - lowest` as denominator, so
a series enumerating each region position once, at depth `d ≥ min_depth`,
yields a count of region length + 1 and a composed percentage above 100. -/
theorem amplicon_covered_count_off_by_one (lowest highest min_depth d : Int)
    (hlt : lowest < highest) (hd : min_depth ≤ d) :
    get_amplicon_covered_pos
        ((List.range (highest - lowest + 1).toNat).map
          (fun i : Nat => ⟨"ref", lowest + (i : Int), d⟩))
        min_depth lowest highest
      = ((highest - lowest).toNat + 1, highest - lowest) ∧
    100 < pct_amplicon_covered_bases ((highest - lowest).toNat + 1) (highest - lowest) := by
  constructor
  · unfold get_amplicon_covered_pos
    simp only [Prod.mk.injEq]
    refine ⟨?_, trivial⟩
    rw [List.countP_map]
    have hall : ∀ i ∈ List.range (highest - lowest + 1).toNat,
        ((fun r : DepthRecord =>
            decide (lowest ≤ r.pos ∧ r.pos ≤ highest ∧ min_depth ≤ r.depth)) ∘
          (fun i : Nat => (⟨"ref", lowest + (i : Int), d⟩ : DepthRecord))) i = true := by
      intro i hi
      rw [List.mem_range] at hi
      have hi' : (i : Int) < highest - lowest + 1 := Int.lt_toNat.mp hi
      simp only [Function.comp]
      refine decide_eq_true ?_
      exact ⟨by omega, by omega, hd⟩
    rw [List.countP_eq_length.mpr hall, List.length_range]
    omega
  · unfold pct_amplicon_covered_bases
    have h0 : (0 : ℚ) < ((highest - lowest : Int) : ℚ) := by
      exact_mod_cast (by omega : (0 : Int) < highest - lowest)
    have htn : (((highest - lowest).toNat : Int)) = highest - lowest :=
      Int.toNat_of_nonneg (by omega)
    have hcast : (((highest - lowest).toNat + 1 : Nat) : ℚ) =
        ((highest - lowest : Int) : ℚ) + 1 := by
      rw [Nat.cast_add, Nat.cast_one, ← htn]
      norm_cast
    rw [hcast, div_mul_eq_mul_div, lt_div_iff₀ h0]
    nlinarith [h0]

/-- **C9 witness**: region [10, 12], uniform depth 50, min_depth 10:
count 3, denominator 2, percentage 150. -/
theorem amplicon_covered_count_off_by_one_witness :
    ((10 : Int) < 12 ∧ (10 : Int) ≤ (50 : Int)) ∧
    (get_amplicon_covered_pos
        ((List.range ((12 : Int) - 10 + 1).toNat).map
          (fun i : Nat => ⟨"ref", 10 + (i : Int), 50⟩))
        10 10 12
      = (((12 : Int) - 10).toNat + 1, (12 : Int) - 10) ∧
     100 < pct_amplicon_covered_bases (((12 : Int) - 10).toNat + 1) ((12 : Int) - 10)) :=
  ⟨⟨by decide, by decide⟩,
   amplicon_covered_count_off_by_one 10 12 10 50 (by decide) (by decide)⟩

/-! ## Claim C4: aggregation vs the materialized fixed-length series -/

/-- **C4 counterexample**: the genome-wide median depth of a series that
omits the zero-depth positions 1 and 2 (reference length 3) is 5, while
on the fully materialized series (depths [0, 0, 5]) it is 0: the
aggregation operations do not treat non-enumerated positions as depth 0. -/
theorem median_depth_differs_from_materialized :
    get_median_depth [⟨"ref", 3, 5⟩] ≠
      get_median_depth (materialized_depth [⟨"ref", 3, 5⟩] 3) := by decide

/-- Closed form of the update fold of `materialized_depth`: each table row
ends up carrying the depth of the last input record at its position, if
any. -/
theorem foldl_set_depth :
    ∀ (dp df : List DepthRecord),
      dp.foldl set_depth df =
        df.map (fun x =>
          (dp.reverse.find? (fun r => r.pos == x.pos)).elim x
            (fun r => { x with depth := r.depth }))
  | [], df => by simp
  | r :: tl, df => by
    rw [List.foldl_cons, foldl_set_depth tl (set_depth df r)]
    unfold set_depth
    rw [List.map_map]
    refine List.map_congr_left ?_
    intro x _
    simp only [Function.comp, List.reverse_cons, List.find?_append]
    by_cases hpx : x.pos = r.pos
    · rw [if_pos hpx]
      cases hft : tl.reverse.find? (fun rr => rr.pos == x.pos) with
      | some r' =>
        have hft' : tl.reverse.find? (fun rr =>
            rr.pos == ({ x with depth := r.depth } : DepthRecord).pos) = some r' := hft
        simp [hft, hft']
      | none =>
        have hft' : tl.reverse.find? (fun rr =>
            rr.pos == ({ x with depth := r.depth } : DepthRecord).pos) = none := hft
        simp [hft, hft', List.find?_cons, hpx]
    · rw [if_neg hpx]
      cases hft : tl.reverse.find? (fun rr => rr.pos == x.pos) with
      | some r' => simp [hft]
      | none =>
        have hne : (r.pos == x.pos) = false := by
          refine beq_eq_false_iff_ne.mpr ?_
          exact fun hc => hpx hc.symm
        simp [hft, List.find?_cons, hne]

/-- Two Boolean predicates that agree everywhere except possibly at one
index below `L` give counts over `List.range L` differing exactly by
their values there. -/
theorem countP_range_eq_except (p q : Nat → Bool) (L i0 : Nat) (hi0 : i0 < L)
    (hexc : ∀ i, i ≠ i0 → p i = q i) :
    List.countP p (List.range L) + (if q i0 then 1 else 0) =
      List.countP q (List.range L) + (if p i0 then 1 else 0) := by
  have hperm := List.perm_cons_erase (List.mem_range.mpr hi0)
  rw [hperm.countP_eq p, hperm.countP_eq q, List.countP_cons, List.countP_cons]
  have hce : List.countP p ((List.range L).erase i0) =
      List.countP q ((List.range L).erase i0) := by
    refine List.countP_congr ?_
    intro i hi
    have hine : i ≠ i0 := (((List.nodup_range L).mem_erase_iff).mp hi).1
    rw [hexc i hine]
  omega

/-- Counting covered rows of the materialized table: with a positive
threshold, each in-range record (no duplicate positions) contributes
exactly its own depth test, and non-enumerated positions contribute
nothing. -/
theorem countP_mat_covered_pred (L : Nat) (m : Int) (hm : 1 ≤ m) :
    ∀ dp : List DepthRecord,
      (∀ r ∈ dp, 1 ≤ r.pos ∧ r.pos ≤ (L : Int)) →
      (dp.map (fun r => r.pos)).Nodup →
      List.countP (mat_covered_pred dp m) (List.range L)
        = List.countP (fun r => decide (m ≤ r.depth)) dp
  | [], _, _ => by
    rw [List.countP_nil, List.countP_eq_zero.mpr]
    intro i _
    simp only [mat_covered_pred, List.reverse_nil, List.find?_nil, Option.elim_none,
      decide_eq_true_eq]
    omega
  | r :: tl, hin, hnd => by
    have hr := hin r (List.mem_cons_self r tl)
    have hin' : ∀ x ∈ tl, 1 ≤ x.pos ∧ x.pos ≤ (L : Int) :=
      fun x hx => hin x (List.mem_cons_of_mem r hx)
    rw [List.map_cons, List.nodup_cons] at hnd
    obtain ⟨hrp, hnd'⟩ := hnd
    have ih := countP_mat_covered_pred L m hm tl hin' hnd'
    have hi0 : (((r.pos - 1).toNat : Int)) = r.pos - 1 := Int.toNat_of_nonneg (by omega)
    have hi0L : (r.pos - 1).toNat < L := by omega
    have hnone : tl.reverse.find?
        (fun rr => rr.pos == (((r.pos - 1).toNat : Int)) + 1) = none := by
      refine List.find?_eq_none.mpr ?_
      intro x hx
      rw [List.mem_reverse] at hx
      have hxr : x.pos ≠ r.pos := by
        intro hc
        exact hrp (hc ▸ List.mem_map_of_mem (fun rr => rr.pos) hx)
      intro hc
      rw [beq_iff_eq] at hc
      exact hxr (by omega)
    have hexc : ∀ i, i ≠ (r.pos - 1).toNat →
        mat_covered_pred (r :: tl) m i = mat_covered_pred tl m i := by
      intro i hine
      have hipos : r.pos ≠ (i : Int) + 1 := by
        intro hc
        exact hine (by omega)
      simp only [mat_covered_pred, List.reverse_cons, List.find?_append]
      have hsing : List.find? (fun rr => rr.pos == (i : Int) + 1) [r] = none := by
        rw [List.find?_cons, List.find?_nil]
        have : (r.pos == (i : Int) + 1) = false := beq_eq_false_iff_ne.mpr hipos
        rw [this]
      rw [hsing, Option.or_none]
    have hf0 : mat_covered_pred (r :: tl) m ((r.pos - 1).toNat) = decide (m ≤ r.depth) := by
      simp only [mat_covered_pred, List.reverse_cons, List.find?_append]
      rw [hnone, Option.none_or, List.find?_cons, List.find?_nil]
      have : (r.pos == (((r.pos - 1).toNat : Int)) + 1) = true := by
        rw [beq_iff_eq]
        omega
      rw [this]
      rfl
    have hg0 : mat_covered_pred tl m ((r.pos - 1).toNat) = false := by
      simp only [mat_covered_pred]
      rw [hnone]
      simp only [Option.elim_none, decide_eq_false_iff_not]
      omega
    have hkey := countP_range_eq_except (mat_covered_pred (r :: tl) m)
      (mat_covered_pred tl m) L ((r.pos - 1).toNat) hi0L hexc
    rw [hf0, hg0, ih] at hkey
    rw [List.countP_cons]
    by_cases hdep : m ≤ r.depth
    · simp [hdep] at hkey ⊢
      omega
    · simp [hdep] at hkey ⊢
      omega

/-- The depth test commutes with filling a table row from an optional
record. -/
theorem covered_elim_bridge (m : Int) (c : String) (p0 : Int) (o : Option DepthRecord) :
    (decide (m ≤ (o.elim ({ contig := c, pos := p0, depth := 0 } : DepthRecord)
        (fun r => { contig := c, pos := p0, depth := r.depth })).depth) = true) ↔
      ((o.elim (decide (m ≤ (0 : Int))) (fun r => decide (m ≤ r.depth))) = true) := by
  cases o <;> exact Iff.rfl

/-- **C4 amended**: the aggregation operations consume the depth records
as given and do not materialize missing positions (only the plot table
does; the medians differ, see the counterexample). The genome-wide
covered-base count alone is unchanged by materialization whenever
`min_depth ≥ 1`, because a filled-in depth-0 position can never be
counted. -/
theorem covered_count_ignores_materialization (dp : List DepthRecord) (L : Nat) (m : Int)
    (hm : 1 ≤ m) (hin : ∀ r ∈ dp, 1 ≤ r.pos ∧ r.pos ≤ (L : Int))
    (hnd : (dp.map (fun r => r.pos)).Nodup) :
    get_covered_pos (materialized_depth dp L) m = get_covered_pos dp m := by
  unfold get_covered_pos materialized_depth
  rw [foldl_set_depth dp (init_depth_df L)]
  unfold init_depth_df
  rw [List.countP_map, List.countP_map]
  rw [← countP_mat_covered_pred L m hm dp hin hnd]
  refine List.countP_congr ?_
  intro i _
  simp only [Function.comp, mat_covered_pred]
  exact covered_elim_bridge m "" ((i : Int) + 1)
    (dp.reverse.find? (fun r => r.pos == (i : Int) + 1))

/-- **C4 amended, witness**: one record at position 2 of a length-2
reference, threshold 1. -/
theorem covered_count_ignores_materialization_witness :
    ((1 : Int) ≤ 1 ∧
      (∀ r ∈ [(⟨"ref", 2, 9⟩ : DepthRecord)], 1 ≤ r.pos ∧ r.pos ≤ ((2 : Nat) : Int)) ∧
      (([(⟨"ref", 2, 9⟩ : DepthRecord)]).map (fun r => r.pos)).Nodup) ∧
    get_covered_pos (materialized_depth [⟨"ref", 2, 9⟩] 2) 1 =
      get_covered_pos [⟨"ref", 2, 9⟩] 1 :=
  ⟨⟨by decide, by decide, by decide⟩,
   covered_count_ignores_materialization [⟨"ref", 2, 9⟩] 2 1
     (by decide) (by decide) (by decide)⟩

/-! ## Claims C10 and C5: structure of the resolved amplicon map -/

/-- Lookup on a cons cell, in propositional form. -/
theorem lookup_cons_eq_if {β : Type} (n a : String) (b : β) (t : List (String × β)) :
    List.lookup n ((a, b) :: t) = if n = a then some b else List.lookup n t := by
  by_cases h : n = a
  · subst h
    simp [List.lookup_cons]
  · simp [List.lookup_cons, beq_eq_false_iff_ne.mpr h, h]

/-- Lookup after replacing every entry keyed `k` by `(k, v)`. -/
theorem lookup_map_replace {β : Type} (k : String) (v : β) (n : String) :
    ∀ m : List (String × β),
      List.lookup n (m.map (fun kv => if kv.1 = k then (k, v) else kv)) =
        if n = k then (if m.any (fun kv => decide (kv.1 = k)) then some v else none)
        else List.lookup n m
  | [] => by simp
  | (a, b) :: t => by
    have ih := lookup_map_replace k v n t
    rw [List.map_cons]
    by_cases hak : a = k
    · rw [show (if (a, b).1 = k then (k, v) else (a, b)) = (k, v) from if_pos hak]
      rw [lookup_cons_eq_if, ih, List.any_cons]
      rw [show (decide ((a, b).1 = k)) = true from decide_eq_true hak, Bool.true_or]
      by_cases hna : n = k
      · simp [hna]
      · simp [hna, lookup_cons_eq_if, hak.symm ▸ hna]
    · rw [show (if (a, b).1 = k then (k, v) else (a, b)) = (a, b) from if_neg hak]
      rw [lookup_cons_eq_if, ih, List.any_cons]
      rw [show (decide ((a, b).1 = k)) = false from decide_eq_false hak, Bool.false_or]
      by_cases hna : n = a
      · subst hna
        simp [hak, lookup_cons_eq_if]
      · rw [if_neg hna, lookup_cons_eq_if, if_neg hna]

/-- Lookup distributes over append via `Option.or`. -/
theorem lookup_append {β : Type} (n : String) :
    ∀ (l1 l2 : List (String × β)),
      List.lookup n (l1 ++ l2) = (List.lookup n l1).or (List.lookup n l2)
  | [], l2 => by simp
  | (a, b) :: t, l2 => by
    have ih := lookup_append n t l2
    rw [List.cons_append, lookup_cons_eq_if, lookup_cons_eq_if, ih]
    by_cases hna : n = a
    · simp [hna]
    · simp [hna]

/-- If no entry carries key `n`, lookup fails. -/
theorem lookup_eq_none_of_any_eq_false {β : Type} (n : String) :
    ∀ m : List (String × β), m.any (fun kv => decide (kv.1 = n)) = false →
      List.lookup n m = none
  | [], _ => by simp
  | (a, b) :: t, h => by
    rw [List.any_cons, Bool.or_eq_false_iff] at h
    rw [lookup_cons_eq_if]
    have hna : n ≠ a := fun hc => of_decide_eq_false h.1 hc.symm
    rw [if_neg hna]
    exact lookup_eq_none_of_any_eq_false n t h.2

/-- The key `k` occurs in the map iff some entry carries it. -/
theorem any_key_iff_mem {β : Type} (m : List (String × β)) (k : String) :
    m.any (fun kv => decide (kv.1 = k)) = true ↔ k ∈ m.map Prod.fst := by
  rw [List.any_eq_true]
  constructor
  · rintro ⟨kv, hkv, hdec⟩
    rw [decide_eq_true_eq] at hdec
    exact hdec ▸ List.mem_map_of_mem Prod.fst hkv
  · intro hk
    rcases List.mem_map.mp hk with ⟨kv, hkv, hfst⟩
    exact ⟨kv, hkv, decide_eq_true hfst⟩

/-- The key list of an insert: unchanged on overwrite, extended by `k`
on append. -/
theorem keys_dict_insert {β : Type} (m : List (String × β)) (k : String) (v : β) :
    (dict_insert m k v).map Prod.fst =
      if m.any (fun kv => decide (kv.1 = k)) then m.map Prod.fst
      else m.map Prod.fst ++ [k] := by
  unfold dict_insert
  by_cases hany : m.any (fun kv => decide (kv.1 = k)) = true
  · rw [if_pos hany, if_pos hany, List.map_map]
    refine List.map_congr_left ?_
    intro kv _
    by_cases hk : kv.1 = k
    · simp [Function.comp, hk]
    · simp [Function.comp, hk]
  · rw [if_neg hany, if_neg hany, List.map_append]
    rfl

/-- Inserting preserves distinctness of keys. -/
theorem nodup_keys_dict_insert {β : Type} (m : List (String × β)) (k : String) (v : β)
    (h : (m.map Prod.fst).Nodup) : ((dict_insert m k v).map Prod.fst).Nodup := by
  rw [keys_dict_insert]
  by_cases hany : m.any (fun kv => decide (kv.1 = k)) = true
  · rw [if_pos hany]
    exact h
  · rw [if_neg hany]
    rw [List.nodup_append]
    refine ⟨h, List.nodup_singleton k, ?_⟩
    intro x hx hx1
    rw [List.mem_singleton] at hx1
    subst hx1
    exact hany ((any_key_iff_mem m x).mpr hx)

/-- Key membership after an insert. -/
theorem mem_keys_dict_insert {β : Type} (m : List (String × β)) (k : String) (v : β)
    (n : String) :
    n ∈ (dict_insert m k v).map Prod.fst ↔ n ∈ m.map Prod.fst ∨ n = k := by
  rw [keys_dict_insert]
  by_cases hany : m.any (fun kv => decide (kv.1 = k)) = true
  · rw [if_pos hany]
    constructor
    · exact Or.inl
    · rintro (h | rfl)
      · exact h
      · exact (any_key_iff_mem m n).mp hany
  · rw [if_neg hany]
    simp [List.mem_append]

/-- Every entry of an insert is an old entry or the inserted pair. -/
theorem mem_dict_insert {β : Type} (kv : String × β) (m : List (String × β))
    (k : String) (v : β) (h : kv ∈ dict_insert m k v) : kv ∈ m ∨ kv = (k, v) := by
  unfold dict_insert at h
  by_cases hany : m.any (fun kv => decide (kv.1 = k)) = true
  · rw [if_pos hany] at h
    rcases List.mem_map.mp h with ⟨x, hx, hfx⟩
    by_cases hk : x.1 = k
    · rw [if_pos hk] at hfx
      exact Or.inr hfx.symm
    · rw [if_neg hk] at hfx
      exact Or.inl (hfx ▸ hx)
  · rw [if_neg hany] at h
    rcases List.mem_append.mp h with h1 | h1
    · exact Or.inl h1
    · rw [List.mem_singleton] at h1
      exact Or.inr h1

/-- Lookup after a Python-dict insert: the inserted key maps to the new
value, all other keys are untouched. -/
theorem lookup_dict_insert {β : Type} (m : List (String × β)) (k : String) (v : β)
    (n : String) :
    List.lookup n (dict_insert m k v) = if n = k then some v else List.lookup n m := by
  unfold dict_insert
  by_cases hany : m.any (fun kv => decide (kv.1 = k)) = true
  · rw [if_pos hany, lookup_map_replace, hany]
    by_cases hnk : n = k <;> simp [hnk]
  · rw [if_neg hany, lookup_append]
    by_cases hnk : n = k
    · subst hnk
      have hf : m.any (fun kv => decide (kv.1 = n)) = false := by
        cases hx : m.any (fun kv => decide (kv.1 = n)) with
        | true => exact absurd hx hany
        | false => rfl
      rw [lookup_eq_none_of_any_eq_false n m hf, Option.none_or, lookup_cons_eq_if]
      simp
    · rw [if_neg hnk]
      have h1 : List.lookup n [(k, v)] = none := by
        rw [lookup_cons_eq_if, if_neg hnk]
        rfl
      rw [h1, Option.or_none]

/-- Successful builds keep the accumulator's keys distinct. -/
theorem build_amplicons_nodup_keys (primers : List (String × Primer)) :
    ∀ (ps : List Primer) (acc m : List (String × Amplicon)),
      build_amplicons primers ps acc = some m →
      (acc.map Prod.fst).Nodup → (m.map Prod.fst).Nodup
  | [], acc, m, h, hnd => by
    simp only [build_amplicons] at h
    injection h with h
    subst h
    exact hnd
  | p :: ps, acc, m, h, hnd => by
    simp only [build_amplicons] at h
    cases ha : amplicon_from_primer primers p with
    | none =>
      rw [ha] at h
      cases h
    | some a =>
      rw [ha] at h
      exact build_amplicons_nodup_keys primers ps _ m h
        (nodup_keys_dict_insert acc p.amplicon_number a hnd)

/-- Every entry of a successfully built map stems from the accumulator or
from some processed primer. -/
theorem build_amplicons_mem (primers : List (String × Primer)) :
    ∀ (ps : List Primer) (acc m : List (String × Amplicon)),
      build_amplicons primers ps acc = some m →
      ∀ kv ∈ m, kv ∈ acc ∨ ∃ p ∈ ps, amplicon_from_primer primers p = some kv.2
  | [], acc, m, h => by
    simp only [build_amplicons] at h
    injection h with h
    subst h
    intro kv hkv
    exact Or.inl hkv
  | p :: ps, acc, m, h => by
    simp only [build_amplicons] at h
    cases ha : amplicon_from_primer primers p with
    | none =>
      rw [ha] at h
      cases h
    | some a =>
      rw [ha] at h
      intro kv hkv
      rcases build_amplicons_mem primers ps _ m h kv hkv with h1 | ⟨q, hq, hq2⟩
      · rcases mem_dict_insert kv acc p.amplicon_number a h1 with h2 | h2
        · exact Or.inl h2
        · refine Or.inr ⟨p, List.mem_cons_self p ps, ?_⟩
          rw [ha, h2]
      · exact Or.inr ⟨q, List.mem_cons_of_mem p hq, hq2⟩

/-- A key is present in a successfully built map iff the accumulator or
one of the processed primers carries it. -/
theorem build_amplicons_mem_keys (primers : List (String × Primer)) :
    ∀ (ps : List Primer) (acc m : List (String × Amplicon)),
      build_amplicons primers ps acc = some m →
      ∀ n, n ∈ m.map Prod.fst ↔
        n ∈ acc.map Prod.fst ∨ ∃ p ∈ ps, p.amplicon_number = n
  | [], acc, m, h => by
    simp only [build_amplicons] at h
    injection h with h
    subst h
    intro n
    simp
  | p :: ps, acc, m, h => by
    simp only [build_amplicons] at h
    cases ha : amplicon_from_primer primers p with
    | none =>
      rw [ha] at h
      cases h
    | some a =>
      rw [ha] at h
      intro n
      rw [build_amplicons_mem_keys primers ps _ m h n, mem_keys_dict_insert]
      constructor
      · rintro ((h1 | h1) | ⟨q, hq, hq2⟩)
        · exact Or.inl h1
        · exact Or.inr ⟨p, List.mem_cons_self p ps, h1.symm⟩
        · exact Or.inr ⟨q, List.mem_cons_of_mem p hq, hq2⟩
      · rintro (h1 | ⟨q, hq, hq2⟩)
        · exact Or.inl (Or.inl h1)
        · rcases List.mem_cons.mp hq with rfl | hq'
          · exact Or.inl (Or.inr hq2.symm)
          · exact Or.inr ⟨q, hq', hq2⟩

/-- Lookup into a successfully built amplicon map is decided by the last
processed forward primer carrying the queried amplicon number, else by
the initial accumulator. -/
theorem build_amplicons_lookup (primers : List (String × Primer)) (n : String) :
    ∀ (ps : List Primer) (acc m : List (String × Amplicon)),
      build_amplicons primers ps acc = some m →
      List.lookup n m =
        (ps.reverse.find? (fun p => p.amplicon_number == n)).elim
          (List.lookup n acc) (fun p => amplicon_from_primer primers p)
  | [], acc, m, h => by
    simp only [build_amplicons] at h
    injection h with h
    subst h
    simp
  | p :: ps, acc, m, h => by
    simp only [build_amplicons] at h
    cases ha : amplicon_from_primer primers p with
    | none =>
      rw [ha] at h
      cases h
    | some a =>
      rw [ha] at h
      have ih := build_amplicons_lookup primers n ps _ m h
      rw [List.reverse_cons, List.find?_append, ih, lookup_dict_insert]
      cases hf : ps.reverse.find? (fun q => q.amplicon_number == n) with
      | some q => simp [hf]
      | none =>
        rw [Option.none_or, Option.elim_none, List.find?_cons, List.find?_nil]
        by_cases hpn : p.amplicon_number = n
        · rw [show (p.amplicon_number == n) = true from beq_iff_eq.mpr hpn,
            if_pos hpn.symm]
          simp [ha]
        · rw [show (p.amplicon_number == n) = false from beq_eq_false_iff_ne.mpr hpn,
            if_neg (fun hc => hpn hc.symm)]
          rfl

/-- **C10**: the resolved amplicon map has distinct keys, one per
distinct amplicon number among forward-oriented primers, and the entry
under each number is built from the *last* forward primer carrying that
number in iteration order (the reverse-order first match): later
duplicates silently overwrite earlier ones instead of being rejected. -/
theorem amplicon_map_last_forward_primer_wins
    (primers : List (String × Primer)) (m : List (String × Amplicon)) (n : String)
    (h : primers_to_amplicons primers = some m) :
    (m.map Prod.fst).Nodup ∧
    (n ∈ m.map Prod.fst ↔
      ∃ p ∈ positive_orientation_primers primers, p.amplicon_number = n) ∧
    List.lookup n m =
      ((positive_orientation_primers primers).reverse.find?
        (fun p => p.amplicon_number == n)).elim none
        (fun p => amplicon_from_primer primers p) := by
  unfold primers_to_amplicons at h
  refine ⟨build_amplicons_nodup_keys primers _ [] m h (by simp), ?_, ?_⟩
  · have hmk := build_amplicons_mem_keys primers _ [] m h n
    simpa using hmk
  · have hlk := build_amplicons_lookup primers n _ [] m h
    simpa using hlk

/-- **C10 witness**: two forward primers share amplicon number "1"; the
resolved map holds a single entry, built from the later one
("B_1_LEFT", insert 80-400, pool "2"). -/
theorem amplicon_map_last_forward_primer_wins_witness :
    (([("1", (⟨"1", 80, 400, 320, "2"⟩ : Amplicon))].map Prod.fst).Nodup ∧
     ("1" ∈ [("1", (⟨"1", 80, 400, 320, "2"⟩ : Amplicon))].map Prod.fst ↔
       ∃ p ∈ positive_orientation_primers c10_primers, p.amplicon_number = "1") ∧
     List.lookup "1" [("1", (⟨"1", 80, 400, 320, "2"⟩ : Amplicon))] =
       ((positive_orientation_primers c10_primers).reverse.find?
         (fun p => p.amplicon_number == "1")).elim none
         (fun p => amplicon_from_primer c10_primers p)) :=
  amplicon_map_last_forward_primer_wins c10_primers
    [("1", ⟨"1", 80, 400, 320, "2"⟩)] "1" (by decide)

/-- A min-fold is bounded by its initial value. -/
theorem foldl_min_le_init : ∀ (xs : List Int) (x : Int), xs.foldl min x ≤ x
  | [], x => le_refl x
  | a :: t, x => by
    rw [List.foldl_cons]
    exact le_trans (foldl_min_le_init t (min x a)) (min_le_left x a)

/-- A min-fold is bounded by every list element. -/
theorem foldl_min_le_mem : ∀ (xs : List Int) (x y : Int), y ∈ xs → xs.foldl min x ≤ y
  | [], _, y, hy => absurd hy (List.not_mem_nil y)
  | a :: t, x, y, hy => by
    rw [List.foldl_cons]
    rcases List.mem_cons.mp hy with rfl | hy'
    · exact le_trans (foldl_min_le_init t (min x y)) (min_le_right x y)
    · exact foldl_min_le_mem t (min x a) y hy'

/-- A max-fold dominates its initial value. -/
theorem foldl_max_ge_init : ∀ (xs : List Int) (x : Int), x ≤ xs.foldl max x
  | [], x => le_refl x
  | a :: t, x => by
    rw [List.foldl_cons]
    exact le_trans (le_max_left x a) (foldl_max_ge_init t (max x a))

/-- A max-fold dominates every list element. -/
theorem foldl_max_ge_mem : ∀ (xs : List Int) (x y : Int), y ∈ xs → y ≤ xs.foldl max x
  | [], _, y, hy => absurd hy (List.not_mem_nil y)
  | a :: t, x, y, hy => by
    rw [List.foldl_cons]
    rcases List.mem_cons.mp hy with rfl | hy'
    · exact le_trans (le_max_right x y) (foldl_max_ge_init t (max x y))
    · exact foldl_max_ge_mem t (max x a) y hy'

/-- The region start computed by `main` bounds every primer's start from
below. -/
theorem lowest_amplicon_start_le (primers : List (String × Primer)) (rs : Int)
    (h : lowest_amplicon_start primers = some rs) :
    ∀ kv ∈ primers, rs ≤ kv.2.start := by
  unfold lowest_amplicon_start at h
  cases hmap : primers.map (fun kv => kv.2.start) with
  | nil =>
    rw [hmap] at h
    cases h
  | cons x xs =>
    rw [hmap] at h
    injection h with h
    subst h
    intro kv hkv
    have hmem : kv.2.start ∈ x :: xs := by
      rw [← hmap]
      exact List.mem_map_of_mem (fun kv => kv.2.start) hkv
    rcases List.mem_cons.mp hmem with heq | hmem'
    · rw [heq]
      exact foldl_min_le_init xs x
    · exact foldl_min_le_mem xs x kv.2.start hmem'

/-- The region end computed by `main` bounds every primer's end from
above. -/
theorem highest_amplicon_end_ge (primers : List (String × Primer)) (re : Int)
    (h : highest_amplicon_end primers = some re) :
    ∀ kv ∈ primers, kv.2.end_ ≤ re := by
  unfold highest_amplicon_end at h
  cases hmap : primers.map (fun kv => kv.2.end_) with
  | nil =>
    rw [hmap] at h
    cases h
  | cons x xs =>
    rw [hmap] at h
    injection h with h
    subst h
    intro kv hkv
    have hmem : kv.2.end_ ∈ x :: xs := by
      rw [← hmap]
      exact List.mem_map_of_mem (fun kv => kv.2.end_) hkv
    rcases List.mem_cons.mp hmem with heq | hmem'
    · rw [heq]
      exact foldl_max_ge_init xs x
    · exact foldl_max_ge_mem xs x kv.2.end_ hmem'

/-- A successful lookup exhibits a matching entry. -/
theorem mem_of_lookup_eq_some {β : Type} (n : String) :
    ∀ (l : List (String × β)) (v : β), List.lookup n l = some v → (n, v) ∈ l
  | [], v, h => by simp at h
  | (a, b) :: t, v, h => by
    rw [lookup_cons_eq_if] at h
    by_cases hna : n = a
    · rw [if_pos hna] at h
      injection h with h
      subst hna
      subst h
      exact List.mem_cons_self (n, b) t
    · rw [if_neg hna] at h
      exact List.mem_cons_of_mem (a, b) (mem_of_lookup_eq_some n t v h)

/-- **C5 counterexample**: on the synthetic primer set, the region start
computed by `main` is 10 (the lowest primer *start*, a forward primer's
start coordinate), while the amplicon starts are 40 and 230: the region
start equals no amplicon start (which would be a forward primer's *end*). -/
theorem region_start_not_an_amplicon_start :
    lowest_amplicon_start c2_primers = some 10 ∧
    (primers_to_amplicons c2_primers).map (fun m => m.map (fun kv => kv.2.start)) =
      some [40, 230] ∧
    (10 : Int) ∉ [(40 : Int), 230] := by decide

/-- **C5 amended**: the region used for the amplicon-region covered-base
count spans from the lowest primer start to the highest primer end over
*all primers* (not from amplicon boundaries); provided every primer has
start ≤ end, this region contains every resolved amplicon's insert. -/
theorem region_bounds_span_primers (primers : List (String × Primer))
    (m : List (String × Amplicon)) (kv : String × Amplicon) (rs re : Int)
    (h : primers_to_amplicons primers = some m)
    (hrs : lowest_amplicon_start primers = some rs)
    (hre : highest_amplicon_end primers = some re)
    (hwf : ∀ e ∈ primers, e.2.start ≤ e.2.end_)
    (hmem : kv ∈ m) :
    rs ≤ kv.2.start ∧ kv.2.end_ ≤ re := by
  unfold primers_to_amplicons at h
  rcases build_amplicons_mem primers _ [] m h kv hmem with h1 | ⟨p, hp, hp2⟩
  · simp at h1
  · unfold amplicon_from_primer at hp2
    cases hq : List.lookup p.pair_name primers with
    | none =>
      rw [hq] at hp2
      cases hp2
    | some q =>
      rw [hq] at hp2
      rw [Option.map_some'] at hp2
      injection hp2 with hp2
      have hpv : ∃ e ∈ primers, e.2 = p := by
        unfold positive_orientation_primers at hp
        have hp' := List.mem_of_mem_filter hp
        rcases List.mem_map.mp hp' with ⟨e, he, he2⟩
        exact ⟨e, he, he2⟩
      rcases hpv with ⟨e, he, he2⟩
      have hqv : (p.pair_name, q) ∈ primers := mem_of_lookup_eq_some p.pair_name primers q hq
      constructor
      · have h1 : rs ≤ p.start := by
          have hl := lowest_amplicon_start_le primers rs hrs e he
          rwa [he2] at hl
        have h2 : p.start ≤ p.end_ := by
          have hw := hwf e he
          rwa [he2] at hw
        rw [← hp2]
        show rs ≤ p.end_
        omega
      · have h1 : q.start ≤ q.end_ := hwf (p.pair_name, q) hqv
        have h2 : q.end_ ≤ re := highest_amplicon_end_ge primers re hre (p.pair_name, q) hqv
        rw [← hp2]
        show q.start ≤ re
        omega

/-- **C5 amended, witness**: the first resolved amplicon of the synthetic
set lies inside the primer-spanned region [10, 580]. -/
theorem region_bounds_span_primers_witness :
    (10 : Int) ≤ (("1", (⟨"1", 40, 360, 320, "1"⟩ : Amplicon)).2.start) ∧
      (("1", (⟨"1", 40, 360, 320, "1"⟩ : Amplicon)).2.end_) ≤ (580 : Int) :=
  region_bounds_span_primers c2_primers
    [("1", ⟨"1", 40, 360, 320, "1"⟩), ("2", ⟨"2", 230, 550, 320, "2"⟩)]
    ("1", ⟨"1", 40, 360, 320, "1"⟩) 10 580
    (by decide) (by decide) (by decide) (by decide) (by decide)
